import Mathlib

/-!
# Verification of the char-RNN data pipeline (Anna_KaRNNa notebook)

This file gives a shallow embedding of the repository's own logic — the
batch splitter `split_data`, the window iterator `get_batch`, the top-N
sampling filter `pick_top_n`, the vocabulary maps `vocab_to_int` /
`int_to_vocab`, and the autoregressive `sample` driver — and proves or
refutes the specified properties of each.

Conventions of the embedding:
* numpy 1-D integer arrays are `List Int`; 2-D arrays are row lists
  (`Mat := List (List Int)`); probability vectors are `List ℚ`.
* Python slicing clamps out-of-range bounds, so `xs[a:b]` is
  `(xs.drop a).take (b - a)` (`npSlice`).
* fallible numpy calls (`np.split` on a length not divisible by the section
  count, indexing an empty argument list, division by a zero step count)
  are modelled with `Option`: `none` is the raised exception.
* the external TensorFlow model is opaque: it is a state-transition
  function `step : σ → Nat → σ × List ℚ` behind the `RNNModel` structure,
  and the random draw of `np.random.choice` is an abstract `draw`
  function; theorems about random choice quantify over every index that
  has positive probability in the distribution handed to it.
-/

abbrev Mat := List (List Int)

/-- Models the Python slice `xs[start:stop]` (with clamping) for
nonnegative bounds. -/
def npSlice (xs : List Int) (start stop : Nat) : List Int :=
  (xs.drop start).take (stop - start)

/-- Models `np.split(xs, k)` followed by `np.stack`: cut `xs` into `k`
contiguous equal chunks.  `np.split` raises `ValueError` when the length is
not divisible by `k` (and when `k = 0`); that is the `none` case. -/
def npSplit (xs : List Int) (k : Nat) : Option Mat :=
  if k ≠ 0 ∧ xs.length % k = 0 then
    some ((List.range k).map fun i =>
      (xs.drop (i * (xs.length / k))).take (xs.length / k))
  else none

/-- Embedding of the truncation/reshape part of `split_data`:

    slice_size = batch_size * num_steps
    n_batches = int(len(chars) / slice_size)
    x = chars[: n_batches*slice_size]
    y = chars[1: n_batches*slice_size + 1]
    x = np.stack(np.split(x, batch_size))
    y = np.stack(np.split(y, batch_size))

`batch_size = 0` makes `np.split` raise and `num_steps = 0` makes the
division raise `ZeroDivisionError`; both are `none`. -/
def split_data_core (chars : List Int) (batch_size num_steps : Nat) :
    Option (Mat × Mat) :=
  if batch_size = 0 ∨ num_steps = 0 then none
  else
    let slice_size := batch_size * num_steps
    let n_batches := chars.length / slice_size
    let x := npSlice chars 0 (n_batches * slice_size)
    let y := npSlice chars 1 (n_batches * slice_size + 1)
    match npSplit x batch_size, npSplit y batch_size with
    | some xs, some ys => some (xs, ys)
    | _, _ => none

/-- Embedding of `split_data(chars, batch_size, num_steps, split_frac)`.
On top of `split_data_core` it computes

    split_idx = int(n_batches * split_frac)
    train_x, train_y = x[:, :split_idx*num_steps], y[:, :split_idx*num_steps]
    val_x, val_y     = x[:, split_idx*num_steps:], y[:, split_idx*num_steps:]

`int()` truncates toward zero, which for the quotient `n * split_frac.num /
split_frac.den` is exactly `Int.tdiv`. -/
def split_data (chars : List Int) (batch_size num_steps : Nat)
    (split_frac : ℚ) : Option (Mat × Mat × Mat × Mat) :=
  match split_data_core chars batch_size num_steps with
  | none => none
  | some (x, y) =>
    let n_batches := chars.length / (batch_size * num_steps)
    let split_idx := (((n_batches : Int) * split_frac.num).tdiv
      (split_frac.den : Int)).toNat
    some (x.map (List.take (split_idx * num_steps)),
          y.map (List.take (split_idx * num_steps)),
          x.map (List.drop (split_idx * num_steps)),
          y.map (List.drop (split_idx * num_steps)))

/-- Embedding of the generator

    def get_batch(arrs, num_steps):
        batch_size, slice_size = arrs[0].shape
        n_batches = int(slice_size/num_steps)
        for b in range(n_batches):
            yield [x[:, b*num_steps: (b+1)*num_steps] for x in arrs]

as the finite list of the yielded tuples, in yield order.  `arrs[0]` on an
empty argument list raises `IndexError` and `num_steps = 0` raises
`ZeroDivisionError`; both are `none`. -/
def get_batch (arrs : List Mat) (num_steps : Nat) : Option (List (List Mat)) :=
  match arrs with
  | [] => none
  | a :: _ =>
    if num_steps = 0 then none
    else
      let slice_size := (a.headD []).length
      let n_batches := slice_size / num_steps
      some ((List.range n_batches).map fun b =>
        arrs.map fun x => x.map fun row =>
          npSlice row (b * num_steps) ((b + 1) * num_steps))

/-- Models `vocab = set(text)`: one enumeration of the distinct characters
of the text.  Python set iteration order is unspecified; the embedding
fixes the concrete enumeration `List.dedup` and only order-independent
properties are claimed. -/
def vocab (text : List Char) : List Char := text.dedup

/-- Models `vocab_to_int = {c: i for i, c in enumerate(vocab)}`: the
position of a character in the enumeration of the vocabulary. -/
def vocab_to_int (text : List Char) (c : Char) : Nat :=
  (vocab text).indexOf c

/-- Models `int_to_vocab = dict(enumerate(vocab))`: the character stored at
a code.  Looking up a code `≥ V` raises `KeyError` in Python; the theorems
only use codes `< V`, where `getD`'s default is never reached. -/
def int_to_vocab (text : List Char) (i : Nat) : Char :=
  (vocab text).getD i 'A'

/-- Models `np.argsort(p)`: the indices of `p` sorted by ascending value.
numpy's default sort makes no tie-break promise; the embedding fixes the
stable `mergeSort` and only tie-break-independent properties are claimed. -/
def argsort (p : List ℚ) : List Nat :=
  (List.range p.length).mergeSort fun i j => decide (p.getD i 0 ≤ p.getD j 0)

/-- Index list `np.argsort(p)[:-top_n]` of the entries that `pick_top_n`
zeroes: all but the `top_n` largest.  (Python's `[:-0]` is empty, hence the
`top_n = 0` case.) -/
def dropped_idx (p : List ℚ) (top_n : Nat) : List Nat :=
  if top_n = 0 then [] else (argsort p).take (p.length - top_n)

/-- State of the prediction array after the in-place assignment
`p[np.argsort(p)[:-top_n]] = 0`: the entries at the dropped indices are
overwritten with `0`, the rest keep their original values.  Because
`np.squeeze` returns a view of the caller's array, this is also the
caller's array after `pick_top_n` returns. -/
def zero_dropped (p : List ℚ) (top_n : Nat) : List ℚ :=
  (List.range p.length).map fun i =>
    if i ∈ dropped_idx p top_n then 0 else p.getD i 0

/-- The truncated categorical distribution `p = p / np.sum(p)` that
`pick_top_n` hands to `np.random.choice`. -/
def pick_top_n_dist (preds : List ℚ) (top_n : Nat) : List ℚ :=
  let p := zero_dropped preds top_n
  p.map (· / p.sum)

/-- Embedding of `pick_top_n(preds, vocab_size, top_n)`.  The call
`np.random.choice(vocab_size, 1, p=p)[0]` draws a random index from the
truncated distribution; the draw is abstracted as a function of the
distribution. -/
def pick_top_n (preds : List ℚ) (top_n : Nat) (draw : List ℚ → Nat) : Nat :=
  draw (pick_top_n_dist preds top_n)

/-- Abstract interface to the trained TensorFlow graph used by `sample`:
an initial recurrent state and one prediction step, mapping a state and an
input character code to the next state and the softmax distribution. -/
structure RNNModel (σ : Type) where
  init : σ
  step : σ → Nat → σ × List ℚ

/-- The `for i in range(n_samples)` generation loop of `sample`: feed the
last chosen code, pick from the predictions with `pick_top_n`, append the
decoded character, repeat. -/
def sampleGen {σ : Type} (M : RNNModel σ) (draw : List ℚ → Nat)
    (text : List Char) : Nat → σ → Nat → List Char
  | 0, _, _ => []
  | n + 1, s, c =>
    let r := M.step s c
    let c2 := pick_top_n r.2 5 draw
    int_to_vocab text c2 :: sampleGen M draw text n r.1 c2

/-- Embedding of `sample(checkpoint, n_samples, lstm_size, vocab_size,
prime)`.  Mirrors the source faithfully, including the line
`prime = "Far"` that overwrites the argument, the priming loop that keeps
only the last prediction, and the one extra character appended between the
priming loop and the `n_samples` loop. -/
def sample {σ : Type} (M : RNNModel σ) (draw : List ℚ → Nat)
    (text : List Char) (n_samples : Nat) (prime : String) : String :=
  let prime := "Far"
  let fed := prime.toList.foldl
    (fun (sp : σ × List ℚ) ch => M.step sp.1 (vocab_to_int text ch))
    (M.init, [])
  let c := pick_top_n fed.2 5 draw
  String.mk (prime.toList ++ [int_to_vocab text c] ++
    sampleGen M draw text n_samples fed.1 c)

/-! ## Helper lemmas about the numpy primitives -/

theorem npSlice_zero (xs : List Int) (b : Nat) : npSlice xs 0 b = xs.take b := by
  simp [npSlice]

theorem npSlice_one (xs : List Int) (b : Nat) :
    npSlice xs 1 (b + 1) = (xs.drop 1).take b := by
  simp [npSlice]

theorem chunk_length {xs : List Int} {m k i : Nat} (hik : i < k)
    (hlen : xs.length = k * m) :
    ((xs.drop (i * m)).take m).length = m := by
  simp only [List.length_take, List.length_drop, hlen]
  have : i * m + m ≤ k * m := by
    have : i + 1 ≤ k := hik
    calc i * m + m = (i + 1) * m := by ring
    _ ≤ k * m := Nat.mul_le_mul_right m this
  omega

theorem chunk_getD {xs : List Int} {m i j : Nat}
    (hj : j < ((xs.drop (i * m)).take m).length) :
    ((xs.drop (i * m)).take m).getD j 0 = xs.getD (i * m + j) 0 := by
  have hj' : j < m := lt_of_lt_of_le hj (by simp [List.length_take])
  have hlen : i * m + j < xs.length := by
    have := hj
    simp only [List.length_take, List.length_drop] at this
    omega
  rw [List.getD_eq_getElem _ _ hj, List.getElem_take, List.getElem_drop,
      List.getD_eq_getElem _ _ hlen]

theorem chunks_flatten (xs : List Int) (m : Nat) :
    ∀ k : Nat,
      ((List.range k).map fun i => (xs.drop (i * m)).take m).flatten
        = xs.take (k * m)
  | 0 => by simp
  | k + 1 => by
    rw [List.range_succ, List.map_append, List.flatten_append,
        chunks_flatten xs m k]
    simp only [List.map_cons, List.map_nil, List.flatten_cons,
      List.flatten_nil, List.append_nil]
    rw [show (k + 1) * m = k * m + m by ring, List.take_add]

theorem npSplit_eq {xs : List Int} {k : Nat} {rows : Mat}
    (h : npSplit xs k = some rows) :
    k ≠ 0 ∧ xs.length % k = 0 ∧
      rows = (List.range k).map fun i =>
        (xs.drop (i * (xs.length / k))).take (xs.length / k) := by
  unfold npSplit at h
  split at h
  · next hc => exact ⟨hc.1, hc.2, (Option.some.injEq _ _ ▸ h).symm⟩
  · exact absurd h (by simp)

theorem npSplit_isSome {xs : List Int} {k : Nat} (hk : k ≠ 0)
    (hmod : xs.length % k = 0) : ∃ rows, npSplit xs k = some rows := by
  unfold npSplit
  rw [if_pos ⟨hk, hmod⟩]
  exact ⟨_, rfl⟩

theorem npSplit_length {xs : List Int} {k : Nat} {rows : Mat}
    (h : npSplit xs k = some rows) : rows.length = k := by
  obtain ⟨-, -, hr⟩ := npSplit_eq h
  simp [hr]

theorem npSplit_row {xs : List Int} {k : Nat} {rows : Mat}
    (h : npSplit xs k = some rows) {i : Nat} (hi : i < k) :
    rows.getD i [] =
      (xs.drop (i * (xs.length / k))).take (xs.length / k) := by
  obtain ⟨-, -, hr⟩ := npSplit_eq h
  subst hr
  have hi' : i < ((List.range k).map fun i =>
      (xs.drop (i * (xs.length / k))).take (xs.length / k)).length := by
    simpa using hi
  rw [List.getD_eq_getElem _ _ hi', List.getElem_map, List.getElem_range]

theorem npSplit_row_length {xs : List Int} {k : Nat} {rows : Mat}
    (h : npSplit xs k = some rows) {i : Nat} (hi : i < k) :
    (rows.getD i []).length = xs.length / k := by
  obtain ⟨hk, hmod, -⟩ := npSplit_eq h
  rw [npSplit_row h hi]
  exact chunk_length hi (by
    rw [Nat.mul_comm]
    exact (Nat.div_mul_cancel (Nat.dvd_of_mod_eq_zero hmod)).symm)

theorem npSplit_flatten {xs : List Int} {k : Nat} {rows : Mat}
    (h : npSplit xs k = some rows) : rows.flatten = xs := by
  obtain ⟨hk, hmod, hr⟩ := npSplit_eq h
  subst hr
  rw [chunks_flatten, Nat.mul_div_cancel' (Nat.dvd_of_mod_eq_zero hmod),
      List.take_length]

/-! ## Helper lemmas about `split_data_core` -/

theorem split_data_core_eq {chars : List Int} {B T : Nat} {x y : Mat}
    (h : split_data_core chars B T = some (x, y)) :
    B ≠ 0 ∧ T ≠ 0 ∧
      npSplit (chars.take (chars.length / (B * T) * (B * T))) B = some x ∧
      npSplit ((chars.drop 1).take (chars.length / (B * T) * (B * T))) B
        = some y := by
  unfold split_data_core at h
  split at h
  · exact absurd h (by simp)
  next hc =>
    push_neg at hc
    simp only [npSlice_zero, npSlice_one] at h
    refine ⟨hc.1, hc.2, ?_⟩
    split at h
    · next hx hy =>
      injection h with h'
      injection h' with h1 h2
      subst h1; subst h2
      exact ⟨hx, hy⟩
    · exact absurd h (by simp)

theorem split_data_core_isSome {chars : List Int} {B T : Nat}
    (hB : B ≠ 0) (hT : T ≠ 0)
    (hy : ((chars.drop 1).take (chars.length / (B * T) * (B * T))).length % B
        = 0) :
    ∃ x y, split_data_core chars B T = some (x, y) := by
  unfold split_data_core
  rw [if_neg (by push_neg; exact ⟨hB, hT⟩)]
  simp only [npSlice_zero, npSlice_one]
  have hxlen : (chars.take (chars.length / (B * T) * (B * T))).length % B
      = 0 := by
    have hle : chars.length / (B * T) * (B * T) ≤ chars.length :=
      Nat.div_mul_le_self _ _
    rw [List.length_take, Nat.min_eq_left hle]
    exact Nat.dvd_iff_mod_eq_zero.mp
      (Dvd.dvd.mul_left (dvd_mul_right B T) _)
  obtain ⟨xr, hxr⟩ := npSplit_isSome hB hxlen
  obtain ⟨yr, hyr⟩ := npSplit_isSome hB hy
  rw [hxr, hyr]
  exact ⟨xr, yr, rfl⟩

theorem getD_take {l : List Int} {N q : Nat} (hq : q < N) :
    (l.take N).getD q 0 = l.getD q 0 := by
  simp [List.getD_eq_getElem?_getD, List.getElem?_take_of_lt hq]

theorem getD_drop_one {l : List Int} (q : Nat) :
    (l.drop 1).getD q 0 = l.getD (q + 1) 0 := by
  rw [List.getD_eq_getElem?_getD, List.getD_eq_getElem?_getD,
      List.getElem?_drop, Nat.add_comm]

theorem xstream_length {chars : List Int} (B T : Nat) :
    (chars.take (chars.length / (B * T) * (B * T))).length
      = chars.length / (B * T) * (B * T) := by
  rw [List.length_take, Nat.min_eq_left (Nat.div_mul_le_self _ _)]

theorem split_data_core_x_facts {chars : List Int} {B T : Nat} {x y : Mat}
    (h : split_data_core chars B T = some (x, y)) :
    x.length = B ∧
      (∀ i, i < B → (x.getD i []).length = chars.length / (B * T) * T) ∧
      (∀ i j, i < B → j < chars.length / (B * T) * T →
        (x.getD i []).getD j 0
          = chars.getD (i * (chars.length / (B * T) * T) + j) 0) ∧
      x.flatten = chars.take (chars.length / (B * T) * (B * T)) := by
  obtain ⟨hB, hT, hx, -⟩ := split_data_core_eq h
  have hlen := @xstream_length chars B T
  have hm : (chars.take (chars.length / (B * T) * (B * T))).length / B
      = chars.length / (B * T) * T := by
    rw [hlen, show chars.length / (B * T) * (B * T) = B * (chars.length / (B * T) * T) by ring,
      Nat.mul_div_cancel_left _ (Nat.pos_of_ne_zero hB)]
  refine ⟨npSplit_length hx, ?_, ?_, ?_⟩
  · intro i hi
    rw [npSplit_row_length hx hi, hm]
  · intro i j hi hj
    rw [npSplit_row hx hi, hm]
    rw [chunk_getD (by
      rw [chunk_length hi (by rw [hlen]; ring)]
      exact hj)]
    exact getD_take (by
      calc i * (chars.length / (B * T) * T) + j
          < i * (chars.length / (B * T) * T) + chars.length / (B * T) * T := by omega
        _ = (i + 1) * (chars.length / (B * T) * T) := by ring
        _ ≤ B * (chars.length / (B * T) * T) := Nat.mul_le_mul_right _ hi
        _ = chars.length / (B * T) * (B * T) := by ring)
  · exact npSplit_flatten hx

theorem split_data_core_y_facts {chars : List Int} {B T : Nat} {x y : Mat}
    (h : split_data_core chars B T = some (x, y)) :
    y.length = B ∧
      (∀ i, i < B → (y.getD i []).length
        = ((chars.drop 1).take (chars.length / (B * T) * (B * T))).length / B) ∧
      (∀ i j, i < B → j < (y.getD i []).length →
        (y.getD i []).getD j 0
          = chars.getD
              (i * (((chars.drop 1).take
                  (chars.length / (B * T) * (B * T))).length / B) + j + 1) 0) := by
  obtain ⟨hB, hT, -, hy⟩ := split_data_core_eq h
  set s := (chars.drop 1).take (chars.length / (B * T) * (B * T)) with hs
  refine ⟨npSplit_length hy, fun i hi => npSplit_row_length hy hi, ?_⟩
  intro i j hi hj
  rw [npSplit_row_length hy hi] at hj
  rw [npSplit_row hy hi]
  obtain ⟨-, hmod, -⟩ := npSplit_eq hy
  have hslen : s.length = B * (s.length / B) :=
    (Nat.mul_div_cancel' (Nat.dvd_of_mod_eq_zero hmod)).symm
  rw [chunk_getD (by rw [chunk_length hi hslen]; exact hj)]
  have hq : i * (s.length / B) + j < s.length := by
    calc i * (s.length / B) + j < i * (s.length / B) + s.length / B := by omega
      _ = (i + 1) * (s.length / B) := by ring
      _ ≤ B * (s.length / B) := Nat.mul_le_mul_right _ hi
      _ = s.length := hslen.symm
  have hq' : i * (s.length / B) + j < chars.length / (B * T) * (B * T) := by
    have : s.length ≤ chars.length / (B * T) * (B * T) := by
      rw [hs]; simp [List.length_take]
    omega
  rw [hs] at *
  rw [getD_take hq', getD_drop_one]

theorem npSplit_nil {k : Nat} (hk : k ≠ 0) :
    npSplit [] k = some (List.replicate k []) := by
  unfold npSplit
  rw [if_pos ⟨hk, by simp⟩]
  congr 1
  simp

theorem split_data_isSome {chars : List Int} {B T : Nat} {x y : Mat} (f : ℚ)
    (h : split_data_core chars B T = some (x, y)) :
    (split_data chars B T f).isSome := by
  unfold split_data
  rw [h]
  rfl

theorem split_data_my_shard {chars : List Int} {B T : Nat} {x y : Mat}
    (h : split_data_core chars B T = some (x, y)) (hB2 : 2 ≤ B) :
    ((chars.drop 1).take (chars.length / (B * T) * (B * T))).length / B
      = chars.length / (B * T) * T := by
  obtain ⟨hB, hT, -, hy⟩ := split_data_core_eq h
  obtain ⟨-, hmod, -⟩ := npSplit_eq hy
  have hle : chars.length / (B * T) * (B * T) ≤ chars.length :=
    Nat.div_mul_le_self _ _
  rw [List.length_take, List.length_drop] at hmod ⊢
  rcases Nat.lt_or_ge (chars.length / (B * T) * (B * T)) chars.length
    with hc | hc
  · rw [Nat.min_eq_left (by omega),
      show chars.length / (B * T) * (B * T)
        = B * (chars.length / (B * T) * T) by ring,
      Nat.mul_div_cancel_left _ (Nat.pos_of_ne_zero hB)]
  · have hexact : chars.length / (B * T) * (B * T) = chars.length :=
      le_antisymm hle hc
    rcases Nat.eq_zero_or_pos chars.length with h0 | h1
    · rw [h0]
      simp
    · exfalso
      rw [Nat.min_eq_right (by omega)] at hmod
      have hdvd1 : B ∣ chars.length - 1 := Nat.dvd_of_mod_eq_zero hmod
      have hdvd2 : B ∣ chars.length := by
        rw [← hexact]
        exact Dvd.dvd.mul_left (dvd_mul_right B T) _
      have hone : B ∣ 1 := by
        have := Nat.dvd_sub' hdvd2 hdvd1
        rwa [Nat.sub_sub_self h1] at this
      have := Nat.dvd_one.mp hone
      omega

/-! ## Claim theorems -/

/-- C2, counterexample: on the spec's end-to-end example — the corpus
`"ABABABAB"` encoded as `[0,1,0,1,0,1,0,1]` with `batch_size = 2`,
`num_steps = 2`, `split_frac = 1.0` — `split_data` does NOT return the
claimed matrices: the target stream `chars[1:9]` has only 7 elements
(the final target is clamped away), 7 is not divisible by `batch_size = 2`,
and `np.split` raises `ValueError`. -/
theorem split_data_example8_raises :
    split_data [0, 1, 0, 1, 0, 1, 0, 1] 2 2 1 = none := by decide

unseal Rat.mul Rat.add Rat.sub Rat.inv in
/-- C2 (amended): the example behaves as the spec describes as soon as the
corpus is one character longer (9 characters, so that the shifted target
stream has a full `n_batches * slice_size` elements): `n_batches = 2`,
the batch matrix has shape `(2, 4)`, the whole matrix is the training
split (`split_frac = 1.0`), and the first window produced by `get_batch`
over `[train_x, train_y]` is input `[[0,1],[0,1]]` with target
`[[1,0],[1,0]]`. -/
theorem split_data_example9 :
    split_data [0, 1, 0, 1, 0, 1, 0, 1, 0] 2 2 1 =
        some ([[0, 1, 0, 1], [0, 1, 0, 1]], [[1, 0, 1, 0], [1, 0, 1, 0]],
          [[], []], [[], []]) ∧
    ([0, 1, 0, 1, 0, 1, 0, 1, 0] : List Int).length / (2 * 2) = 2 ∧
    get_batch [[[0, 1, 0, 1], [0, 1, 0, 1]], [[1, 0, 1, 0], [1, 0, 1, 0]]] 2
      = some [[[[0, 1], [0, 1]], [[1, 0], [1, 0]]],
              [[[0, 1], [0, 1]], [[1, 0], [1, 0]]]] := by
  exact ⟨by decide, by decide, by decide⟩

/-- C3, counterexample: `split_data` does not complete without error for
every corpus with `L ≥ batch_size * num_steps`.  For a 4-character corpus
with `batch_size = 2`, `num_steps = 2` (so `L = slice_size = 4`), the
target stream `chars[1:5]` has 3 elements, `np.split(·, 2)` raises, and
the call fails. -/
theorem split_data_exact_multiple_raises :
    split_data [0, 0, 0, 0] 2 2 (9 / 10) = none := by decide

/-- C3 (amended): `split_data` completes without error — truncating the
input stream to `n_batches * slice_size` positions and building the target
stream from the positions shifted by one — whenever the truncation is
strictly shorter than the corpus (equivalently, `slice_size` does not
divide `L` exactly), and also when `batch_size = 1` (where the final
target really is dropped).  In the remaining case (`B ≥ 2` and `L` a
positive exact multiple of `B * T`) the claim fails, as the
counterexample shows. -/
theorem split_data_completes (chars : List Int) (B T : Nat) (f : ℚ)
    (hB : B ≠ 0) (hT : T ≠ 0)
    (hstrict : chars.length / (B * T) * (B * T) < chars.length ∨ B = 1) :
    ∃ x y, split_data_core chars B T = some (x, y) ∧
      x.flatten = chars.take (chars.length / (B * T) * (B * T)) ∧
      y.flatten = (chars.drop 1).take (chars.length / (B * T) * (B * T)) ∧
      (split_data chars B T f).isSome := by
  have hy : ((chars.drop 1).take
      (chars.length / (B * T) * (B * T))).length % B = 0 := by
    rw [List.length_take, List.length_drop]
    rcases hstrict with hc | hc
    · rw [Nat.min_eq_left (by omega)]
      exact Nat.dvd_iff_mod_eq_zero.mp
        (Dvd.dvd.mul_left (dvd_mul_right B T) _)
    · subst hc
      simp [Nat.mod_one]
  obtain ⟨x, y, hxy⟩ := split_data_core_isSome hB hT hy
  obtain ⟨-, -, hx', hy'⟩ := split_data_core_eq hxy
  exact ⟨x, y, hxy, npSplit_flatten hx', npSplit_flatten hy',
    split_data_isSome f hxy⟩

/-- C3 witness: the amended claim applied to the 9-character corpus with
`batch_size = 2`, `num_steps = 2`, `split_frac = 0.9`. -/
theorem split_data_completes_witness :
    (([0, 1, 0, 1, 0, 1, 0, 1, 0] : List Int).length / (2 * 2) * (2 * 2)
        < ([0, 1, 0, 1, 0, 1, 0, 1, 0] : List Int).length ∨ (2 : Nat) = 1) ∧
    (∃ x y, split_data_core [0, 1, 0, 1, 0, 1, 0, 1, 0] 2 2 = some (x, y) ∧
      x.flatten = ([0, 1, 0, 1, 0, 1, 0, 1, 0] : List Int).take
        (([0, 1, 0, 1, 0, 1, 0, 1, 0] : List Int).length / (2 * 2) * (2 * 2)) ∧
      y.flatten = (([0, 1, 0, 1, 0, 1, 0, 1, 0] : List Int).drop 1).take
        (([0, 1, 0, 1, 0, 1, 0, 1, 0] : List Int).length / (2 * 2) * (2 * 2)) ∧
      (split_data [0, 1, 0, 1, 0, 1, 0, 1, 0] 2 2 (9 / 10)).isSome) :=
  ⟨Or.inl (by decide),
    split_data_completes _ 2 2 (9 / 10) (by decide) (by decide)
      (Or.inl (by decide))⟩

unseal Rat.mul Rat.add Rat.sub Rat.inv in
/-- C5, counterexample: on a corpus shorter than one
`batch_size * num_steps` slice the Batch Splitter does NOT fail fast: it
returns successfully, with four `(batch_size, 0)` matrices of empty rows. -/
theorem split_data_short_returns_empty :
    split_data [5] 2 2 (9 / 10)
      = some ([[], []], [[], []], [[], []], [[], []]) := by decide

/-- C5 (amended): when the corpus is shorter than one
`batch_size * num_steps` slice (`n_batches = 0`), `split_data` proceeds
and returns `some` with four matrices of `batch_size` empty rows — it
never raises; treating this as a configuration error is left to the
caller. -/
theorem split_data_short (chars : List Int) (B T : Nat) (f : ℚ)
    (hB : B ≠ 0) (hT : T ≠ 0) (hshort : chars.length < B * T) :
    split_data chars B T f
      = some (List.replicate B [], List.replicate B [],
              List.replicate B [], List.replicate B []) := by
  have hn : chars.length / (B * T) = 0 := Nat.div_eq_of_lt hshort
  have hcore : split_data_core chars B T
      = some (List.replicate B [], List.replicate B []) := by
    unfold split_data_core
    rw [if_neg (by push_neg; exact ⟨hB, hT⟩)]
    simp only [npSlice_zero, npSlice_one, hn, Nat.zero_mul, List.take_zero]
    rw [npSplit_nil hB]
  unfold split_data
  rw [hcore]
  simp [List.map_replicate]

/-- C5 witness: the amended claim applied to the single-character corpus
`[5]` with `batch_size = 2`, `num_steps = 2`, `split_frac = 0.9`. -/
theorem split_data_short_witness :
    ([5] : List Int).length < 2 * 2 ∧
    split_data [5] 2 2 (9 / 10)
      = some (List.replicate 2 [], List.replicate 2 [],
              List.replicate 2 [], List.replicate 2 []) :=
  ⟨by decide, split_data_short _ 2 2 (9 / 10) (by decide) (by decide)
    (by decide)⟩

/-- C4: whenever `split_data` succeeds, every target entry is the corpus
value one position after the corpus position of the corresponding input
entry (`x[i][j] = chars[i*shard + j]`, `y[i][j] = chars[i*shard + j + 1]`
with `shard = n_batches * num_steps` the per-row shard length), and at the
last column of row `i` the target is the first character of row `i+1`'s
shard: the one-position offset wraps into the next shard. -/
theorem split_data_target_offset {chars : List Int} {B T : Nat} {x y : Mat}
    (h : split_data_core chars B T = some (x, y)) :
    (∀ i j, i < B → j < (y.getD i []).length →
        (x.getD i []).getD j 0
            = chars.getD (i * (chars.length / (B * T) * T) + j) 0 ∧
        (y.getD i []).getD j 0
            = chars.getD (i * (chars.length / (B * T) * T) + j + 1) 0) ∧
    (∀ i, i + 1 < B → 1 ≤ chars.length / (B * T) * T →
        (y.getD i []).getD (chars.length / (B * T) * T - 1) 0
          = (x.getD (i + 1) []).getD 0 0) := by
  obtain ⟨-, hxrow, hxget, -⟩ := split_data_core_x_facts h
  obtain ⟨-, hyrow, hyget⟩ := split_data_core_y_facts h
  have hmy_le : ((chars.drop 1).take
      (chars.length / (B * T) * (B * T))).length / B
        ≤ chars.length / (B * T) * T := by
    have h1 : ((chars.drop 1).take
        (chars.length / (B * T) * (B * T))).length
          ≤ chars.length / (B * T) * (B * T) := by
      simp [List.length_take]
    calc ((chars.drop 1).take (chars.length / (B * T) * (B * T))).length / B
        ≤ chars.length / (B * T) * (B * T) / B := Nat.div_le_div_right h1
      _ = chars.length / (B * T) * T := by
          rw [show chars.length / (B * T) * (B * T)
            = B * (chars.length / (B * T) * T) by ring]
          rcases Nat.eq_zero_or_pos B with h0 | hB
          · subst h0
            obtain ⟨hB', -⟩ := split_data_core_eq h
            exact absurd rfl hB'
          · exact Nat.mul_div_cancel_left _ hB
  have key : ∀ i, i < B →
      ∀ j, j < (y.getD i []).length →
        i * (((chars.drop 1).take
            (chars.length / (B * T) * (B * T))).length / B)
          = i * (chars.length / (B * T) * T) := by
    intro i hi j hj
    rcases Nat.eq_zero_or_pos i with h0 | h1
    · subst h0
      simp
    · have hB2 : 2 ≤ B := by omega
      rw [split_data_my_shard h hB2]
  constructor
  · intro i j hi hj
    have hjm : j < ((chars.drop 1).take
        (chars.length / (B * T) * (B * T))).length / B := by
      rw [← hyrow i hi]
      exact hj
    refine ⟨?_, ?_⟩
    · exact hxget i j hi (lt_of_lt_of_le hjm hmy_le)
    · rw [hyget i j hi hj, key i hi j hj]
  · intro i hi hsh
    have hB2 : 2 ≤ B := by omega
    have hmy := split_data_my_shard h hB2
    have hylen : (y.getD i []).length = chars.length / (B * T) * T := by
      rw [hyrow i (by omega), hmy]
    have hj : chars.length / (B * T) * T - 1 < (y.getD i []).length := by
      rw [hylen]
      omega
    rw [hyget i _ (by omega) hj, key i (by omega) _ hj,
      hxget (i + 1) 0 hi (by omega)]
    congr 1
    have heq : i * (chars.length / (B * T) * T)
        + (chars.length / (B * T) * T - 1) + 1
        = (i + 1) * (chars.length / (B * T) * T) + 0 := by
      rw [Nat.add_assoc, Nat.sub_add_cancel hsh, Nat.add_zero, Nat.succ_mul]
    rw [heq]

/-- C4 witness: for the corpus `[0,…,8]` with `batch_size = 2`,
`num_steps = 2` (`shard = 4`), the boundary case of the claim — the target
at the last column of row 0 equals the input at the first column of
row 1. -/
theorem split_data_target_offset_witness :
    split_data_core [0, 1, 2, 3, 4, 5, 6, 7, 8] 2 2
        = some ([[0, 1, 2, 3], [4, 5, 6, 7]], [[1, 2, 3, 4], [5, 6, 7, 8]]) ∧
    (([[1, 2, 3, 4], [5, 6, 7, 8]] : Mat).getD 0 []).getD 3 0
      = (([[0, 1, 2, 3], [4, 5, 6, 7]] : Mat).getD 1 []).getD 0 0 :=
  ⟨by decide,
    (@split_data_target_offset [0, 1, 2, 3, 4, 5, 6, 7, 8] 2 2
      [[0, 1, 2, 3], [4, 5, 6, 7]] [[1, 2, 3, 4], [5, 6, 7, 8]]
      (by decide)).2 0 (by decide) (by decide)⟩

/-- C8: whenever `split_data` succeeds, concatenating the `batch_size`
rows of the batch matrix in row order reproduces the contiguous truncation
of the encoded corpus to `n_batches * slice_size` characters, and row `i`
holds exactly the corpus positions
`[i * shard_len, (i+1) * shard_len)` with `shard_len = n_batches *
num_steps`. -/
theorem split_data_rows_roundtrip {chars : List Int} {B T : Nat} {x y : Mat}
    (h : split_data_core chars B T = some (x, y)) :
    x.flatten = chars.take (chars.length / (B * T) * (B * T)) ∧
    x.length = B ∧
    (∀ i, i < B → (x.getD i []).length = chars.length / (B * T) * T) ∧
    (∀ i j, i < B → j < chars.length / (B * T) * T →
        (x.getD i []).getD j 0
          = chars.getD (i * (chars.length / (B * T) * T) + j) 0) := by
  obtain ⟨h1, h2, h3, h4⟩ := split_data_core_x_facts h
  exact ⟨h4, h1, h2, h3⟩

/-- C8 witness: the round-trip applied to the corpus `[3,1,4,1,5,9,2,6,5]`
with `batch_size = 2`, `num_steps = 2`: flattening the batch matrix gives
back the first 8 corpus characters. -/
theorem split_data_rows_roundtrip_witness :
    split_data_core [3, 1, 4, 1, 5, 9, 2, 6, 5] 2 2
        = some ([[3, 1, 4, 1], [5, 9, 2, 6]], [[1, 4, 1, 5], [9, 2, 6, 5]]) ∧
    ([[3, 1, 4, 1], [5, 9, 2, 6]] : Mat).flatten
      = ([3, 1, 4, 1, 5, 9, 2, 6, 5] : List Int).take
          (([3, 1, 4, 1, 5, 9, 2, 6, 5] : List Int).length / (2 * 2) * (2 * 2)) :=
  ⟨by decide,
    (@split_data_rows_roundtrip [3, 1, 4, 1, 5, 9, 2, 6, 5] 2 2
      [[3, 1, 4, 1], [5, 9, 2, 6]] [[1, 4, 1, 5], [9, 2, 6, 5]]
      (by decide)).1⟩

/-- C6: for a nonempty family of equal-shape matrices with `R ≥ 1` rows and
`C` columns and a window length `T ≥ 1`, `get_batch` yields exactly
`C / T` tuples; the `b`-th tuple contains, per input matrix, the full
`(R, T)` slice of columns `[b*T, (b+1)*T)` — windows appear in strictly
increasing column order, no window is partial (every row of every slice
has exactly `T` entries), and the `C mod T` remainder columns are in no
window. -/
theorem get_batch_spec (arrs : List Mat) (T R C : Nat)
    (hne : arrs ≠ []) (hT : T ≠ 0) (hR : R ≠ 0)
    (hshape : ∀ m ∈ arrs, m.length = R ∧ ∀ row ∈ m, row.length = C) :
    ∃ ws, get_batch arrs T = some ws ∧
      ws.length = C / T ∧
      (∀ b, b < C / T →
        ws.getD b [] = arrs.map fun m => m.map fun row =>
          npSlice row (b * T) ((b + 1) * T)) ∧
      (∀ b, b < C / T → ∀ w ∈ ws.getD b [], w.length = R ∧
        ∀ row ∈ w, row.length = T) := by
  cases arrs with
  | nil => exact absurd rfl hne
  | cons a rest =>
    obtain ⟨haR, harow⟩ := hshape a (List.mem_cons_self a rest)
    have ha : (a.headD []).length = C := by
      cases a with
      | nil => rw [List.length_nil] at haR; exact absurd haR.symm hR
      | cons r0 rs => exact harow r0 (List.mem_cons_self _ _)
    have hgb : get_batch (a :: rest) T
        = some ((List.range (C / T)).map fun b =>
            (a :: rest).map fun x => x.map fun row =>
              npSlice row (b * T) ((b + 1) * T)) := by
      show (if T = 0 then none
        else
          let slice_size := (a.headD []).length
          let n_batches := slice_size / T
          some ((List.range n_batches).map fun b =>
            (a :: rest).map fun x => x.map fun row =>
              npSlice row (b * T) ((b + 1) * T))) = _
      rw [if_neg hT, ha]
    have hwin : ∀ b, b < C / T →
        ((List.range (C / T)).map fun b =>
            (a :: rest).map fun x => x.map fun row =>
              npSlice row (b * T) ((b + 1) * T)).getD b []
          = (a :: rest).map fun m => m.map fun row =>
              npSlice row (b * T) ((b + 1) * T) := by
      intro b hb
      rw [List.getD_eq_getElem _ _ (by simpa using hb), List.getElem_map,
        List.getElem_range]
    refine ⟨_, hgb, by simp, hwin, ?_⟩
    intro b hb w hw
    rw [hwin b hb] at hw
    obtain ⟨m, hm, rfl⟩ := List.mem_map.mp hw
    obtain ⟨hmR, hmrow⟩ := hshape m hm
    refine ⟨by simpa using hmR, ?_⟩
    intro row hrow
    obtain ⟨r, hr, rfl⟩ := List.mem_map.mp hrow
    have hrC : r.length = C := hmrow r hr
    have hbT : (b + 1) * T ≤ C :=
      le_trans (Nat.mul_le_mul_right T (by omega)) (Nat.div_mul_le_self C T)
    unfold npSlice
    rw [List.length_take, List.length_drop, hrC]
    have : (b + 1) * T - b * T = T := by
      rw [Nat.succ_mul]
      omega
    rw [this]
    have : b * T + T ≤ C := by
      rw [← Nat.succ_mul]
      exact hbT
    omega

/-- C6 witness: a single 2×3 matrix with `T = 2`: exactly one full window
(columns 0–1), the remainder column 2 appears in no window. -/
theorem get_batch_spec_witness :
    ([[[1, 2, 3], [4, 5, 6]]] : List Mat) ≠ [] ∧
    (∃ ws, get_batch [[[1, 2, 3], [4, 5, 6]]] 2 = some ws ∧
      ws.length = 3 / 2 ∧
      (∀ b, b < 3 / 2 →
        ws.getD b [] = ([[[1, 2, 3], [4, 5, 6]]] : List Mat).map fun m =>
          m.map fun row => npSlice row (b * 2) ((b + 1) * 2)) ∧
      (∀ b, b < 3 / 2 → ∀ w ∈ ws.getD b [], w.length = 2 ∧
        ∀ row ∈ w, row.length = 2)) :=
  ⟨by decide,
    get_batch_spec [[[1, 2, 3], [4, 5, 6]]] 2 2 3 (by decide) (by decide)
      (by decide) (by decide)⟩

/-- C9: `vocab_to_int` and `int_to_vocab` are mutually inverse bijections
between the distinct characters of the text and the contiguous codes
`[0, V)` where `V` is the number of distinct characters: the vocabulary
enumeration has no duplicates and exactly the text's characters; every
text character maps to a code `< V` and back to itself; every code `< V`
maps to a text character and back to itself. -/
theorem vocab_bijection (text : List Char) :
    (vocab text).Nodup ∧
    (∀ c, c ∈ vocab text ↔ c ∈ text) ∧
    (∀ c ∈ text, vocab_to_int text c < (vocab text).length ∧
      int_to_vocab text (vocab_to_int text c) = c) ∧
    (∀ i, i < (vocab text).length →
      int_to_vocab text i ∈ text ∧
      vocab_to_int text (int_to_vocab text i) = i) := by
  refine ⟨List.nodup_dedup text, fun c => List.mem_dedup, ?_, ?_⟩
  · intro c hc
    have hmem : c ∈ vocab text := List.mem_dedup.mpr hc
    have hlt : (vocab text).indexOf c < (vocab text).length :=
      List.indexOf_lt_length.mpr hmem
    refine ⟨hlt, ?_⟩
    unfold int_to_vocab vocab_to_int
    rw [List.getD_eq_getElem _ _ hlt]
    exact List.getElem_indexOf hlt
  · intro i hi
    have hgd : int_to_vocab text i = (vocab text)[i] :=
      List.getD_eq_getElem _ _ hi
    constructor
    · rw [hgd]
      exact List.mem_dedup.mp (List.getElem_mem hi)
    · rw [hgd]
      exact List.indexOf_getElem (List.nodup_dedup text) i hi

/-- C9 witness: in the text `"bab"` the character `'a'` round-trips
through its code. -/
theorem vocab_bijection_witness :
    'a' ∈ ['b', 'a', 'b'] ∧
    int_to_vocab ['b', 'a', 'b'] (vocab_to_int ['b', 'a', 'b'] 'a') = 'a' :=
  ⟨by decide, ((vocab_bijection ['b', 'a', 'b']).2.2.1 'a' (by decide)).2⟩

/-! ## Helper lemmas about `argsort` and the top-N filter -/

theorem argsort_perm (p : List ℚ) : (argsort p).Perm (List.range p.length) :=
  List.mergeSort_perm _ _

theorem argsort_length (p : List ℚ) : (argsort p).length = p.length := by
  rw [(argsort_perm p).length_eq, List.length_range]

theorem argsort_nodup (p : List ℚ) : (argsort p).Nodup :=
  (argsort_perm p).symm.nodup (List.nodup_range _)

theorem mem_argsort {p : List ℚ} {i : Nat} : i ∈ argsort p ↔ i < p.length := by
  rw [(argsort_perm p).mem_iff, List.mem_range]

theorem argsort_sorted (p : List ℚ) :
    (argsort p).Pairwise fun i j => p.getD i 0 ≤ p.getD j 0 := by
  have h := @List.sorted_mergeSort Nat
    (fun i j => decide (p.getD i 0 ≤ p.getD j 0))
    (fun a b c hab hbc => by
      simp only [decide_eq_true_eq] at hab hbc ⊢
      exact le_trans hab hbc)
    (fun a b => by
      simp only [Bool.or_eq_true, decide_eq_true_eq]
      exact le_total _ _)
    (List.range p.length)
  exact h.imp fun hab => by simpa using hab

theorem argsort_take_le_drop {p : List ℚ} {k i j : Nat}
    (hi : i ∈ (argsort p).take k) (hj : j ∈ (argsort p).drop k) :
    p.getD i 0 ≤ p.getD j 0 := by
  have h := argsort_sorted p
  rw [← List.take_append_drop k (argsort p)] at h
  exact (List.pairwise_append.mp h).2.2 i hi j hj

theorem argsort_drop_not_take {p : List ℚ} {k i : Nat}
    (hdrop : i ∈ (argsort p).drop k) : i ∉ (argsort p).take k := by
  have h := argsort_nodup p
  rw [← List.take_append_drop k (argsort p)] at h
  exact fun htake => (List.nodup_append.mp h).2.2 htake hdrop

theorem zero_dropped_length (p : List ℚ) (n : Nat) :
    (zero_dropped p n).length = p.length := by
  simp [zero_dropped]

theorem zero_dropped_getD {p : List ℚ} {n i : Nat} (hi : i < p.length) :
    (zero_dropped p n).getD i 0
      = if i ∈ dropped_idx p n then 0 else p.getD i 0 := by
  have hi' : i < (zero_dropped p n).length := by
    rw [zero_dropped_length]; exact hi
  rw [List.getD_eq_getElem _ _ hi']
  simp [zero_dropped]

theorem zero_dropped_nonneg {p : List ℚ} {n : Nat}
    (hpos : ∀ x ∈ p, 0 ≤ x) : ∀ x ∈ zero_dropped p n, 0 ≤ x := by
  intro x hx
  simp only [zero_dropped, List.mem_map, List.mem_range] at hx
  obtain ⟨i, hi, rfl⟩ := hx
  split
  · exact le_refl 0
  · exact hpos _ (by
      rw [List.getD_eq_getElem _ _ hi]
      exact List.getElem_mem hi)

theorem zero_dropped_sum_pos {p : List ℚ} {n : Nat} (hn : 1 ≤ n)
    (hpos : ∀ x ∈ p, 0 ≤ x) (hsum : p.sum = 1) :
    0 < (zero_dropped p n).sum := by
  have hex : ∃ j, j < p.length ∧ 0 < p.getD j 0 := by
    by_contra hno
    push_neg at hno
    have hall : ∀ x ∈ p, x = 0 := by
      intro x hx
      obtain ⟨j, hj, rfl⟩ := List.mem_iff_getElem.mp hx
      have h1 := hno j hj
      rw [List.getD_eq_getElem _ _ hj] at h1
      exact le_antisymm h1 (hpos _ (List.getElem_mem hj))
    rw [List.sum_eq_zero hall] at hsum
    exact absurd hsum (by norm_num)
  obtain ⟨j, hj, hjpos⟩ := hex
  have hkept : (argsort p).drop (p.length - n) ≠ [] := by
    intro hnil
    have hlen := congrArg List.length hnil
    rw [List.length_drop, argsort_length] at hlen
    simp only [List.length_nil] at hlen
    omega
  have hjmem : j ∈ (argsort p).take (p.length - n)
      ++ (argsort p).drop (p.length - n) := by
    rw [List.take_append_drop]
    exact mem_argsort.mpr hj
  obtain ⟨jk, hjk, hjkpos⟩ : ∃ jk, jk ∈ (argsort p).drop (p.length - n) ∧
      0 < p.getD jk 0 := by
    rcases List.mem_append.mp hjmem with h1 | h2
    · obtain ⟨jk, hjk⟩ := List.exists_mem_of_ne_nil _ hkept
      exact ⟨jk, hjk, lt_of_lt_of_le hjpos (argsort_take_le_drop h1 hjk)⟩
    · exact ⟨j, h2, hjpos⟩
  have hjk_lt : jk < p.length := mem_argsort.mp (List.mem_of_mem_drop hjk)
  have hval : (zero_dropped p n).getD jk 0 = p.getD jk 0 := by
    rw [zero_dropped_getD hjk_lt, if_neg]
    intro hmem
    unfold dropped_idx at hmem
    rw [if_neg (by omega)] at hmem
    exact argsort_drop_not_take hjk hmem
  have hmemz : (zero_dropped p n).getD jk 0 ∈ zero_dropped p n := by
    have hlt : jk < (zero_dropped p n).length := by
      rw [zero_dropped_length]; exact hjk_lt
    rw [List.getD_eq_getElem _ _ hlt]
    exact List.getElem_mem hlt
  calc (0 : ℚ) < p.getD jk 0 := hjkpos
    _ = (zero_dropped p n).getD jk 0 := hval.symm
    _ ≤ (zero_dropped p n).sum :=
        List.single_le_sum (zero_dropped_nonneg hpos) _ hmemz

theorem sum_map_div (l : List ℚ) (s : ℚ) :
    (l.map (· / s)).sum = l.sum / s := by
  induction l with
  | nil => simp
  | cons a t ih => simp [ih, add_div]

theorem kept_rank {p : List ℚ} {top_n c : Nat} (hn : 1 ≤ top_n)
    (hc : c ∈ (argsort p).drop (p.length - top_n)) :
    ((List.range p.length).filter
        fun j => decide (p.getD c 0 < p.getD j 0)).length < top_n := by
  have hperm : ((List.range p.length).filter
      fun j => decide (p.getD c 0 < p.getD j 0)).length
        = ((argsort p).filter
          fun j => decide (p.getD c 0 < p.getD j 0)).length :=
    (List.Perm.filter _ (argsort_perm p)).symm.length_eq
  have hsplit : (argsort p).filter
      (fun j => decide (p.getD c 0 < p.getD j 0))
        = ((argsort p).take (p.length - top_n)).filter
            (fun j => decide (p.getD c 0 < p.getD j 0))
          ++ ((argsort p).drop (p.length - top_n)).filter
            (fun j => decide (p.getD c 0 < p.getD j 0)) := by
    rw [← List.filter_append, List.take_append_drop]
  have h1 : ((argsort p).take (p.length - top_n)).filter
      (fun j => decide (p.getD c 0 < p.getD j 0)) = [] := by
    rw [List.filter_eq_nil_iff]
    intro a ha
    simp only [decide_eq_true_eq, not_lt]
    exact argsort_take_le_drop ha hc
  have h2 : (((argsort p).drop (p.length - top_n)).filter
      (fun j => decide (p.getD c 0 < p.getD j 0))).length
        < ((argsort p).drop (p.length - top_n)).length := by
    rw [List.length_filter_lt_length_iff_exists]
    exact ⟨c, hc, by simp⟩
  have h3 : ((argsort p).drop (p.length - top_n)).length ≤ top_n := by
    rw [List.length_drop, argsort_length]
    omega
  rw [hperm, hsplit, List.length_append, h1]
  simp only [List.length_nil]
  omega

theorem map_getD_range (l : List ℚ) :
    (List.range l.length).map (fun i => l.getD i 0) = l := by
  apply List.ext_getElem (by simp)
  intro i h1 h2
  simp [List.getD_eq_getElem _ _ h2, List.getElem?_eq_getElem h2]

/-- C7: for a probability distribution `preds` (nonnegative entries
summing to 1) and `top_n ≥ 1`, the truncated distribution built by
`pick_top_n` sums to 1 after renormalisation; every index that
`np.random.choice` can return (positive truncated probability) has
positive original probability and ranks within the top `top_n` (fewer
than `top_n` entries are strictly larger); and for `top_n ≥` the
vocabulary size the truncated distribution is exactly `preds`. -/
theorem pick_top_n_spec (preds : List ℚ) (top_n : Nat)
    (hpos : ∀ x ∈ preds, 0 ≤ x) (hsum : preds.sum = 1) (hn : 1 ≤ top_n) :
    (pick_top_n_dist preds top_n).sum = 1 ∧
    (∀ c, 0 < (pick_top_n_dist preds top_n).getD c 0 →
      0 < preds.getD c 0 ∧
      ((List.range preds.length).filter
          fun j => decide (preds.getD c 0 < preds.getD j 0)).length < top_n) ∧
    (preds.length ≤ top_n → pick_top_n_dist preds top_n = preds) := by
  have hS := zero_dropped_sum_pos hn hpos hsum
  refine ⟨?_, ?_, ?_⟩
  · unfold pick_top_n_dist
    rw [sum_map_div, div_self (ne_of_gt hS)]
  · intro c hcpos
    have hclen : c < preds.length := by
      by_contra hge
      push_neg at hge
      have : (pick_top_n_dist preds top_n).getD c 0 = 0 := by
        apply List.getD_eq_default
        unfold pick_top_n_dist
        rw [List.length_map, zero_dropped_length]
        exact hge
      rw [this] at hcpos
      exact absurd hcpos (lt_irrefl 0)
    have hgd : (pick_top_n_dist preds top_n).getD c 0
        = (zero_dropped preds top_n).getD c 0
            / (zero_dropped preds top_n).sum := by
      unfold pick_top_n_dist
      have hlt : c < (zero_dropped preds top_n).length := by
        rw [zero_dropped_length]; exact hclen
      have hlt' : c < ((zero_dropped preds top_n).map
          (· / (zero_dropped preds top_n).sum)).length := by
        rw [List.length_map]; exact hlt
      rw [List.getD_eq_getElem _ _ hlt', List.getElem_map,
        List.getD_eq_getElem _ _ hlt]
    rw [hgd] at hcpos
    have hzpos : 0 < (zero_dropped preds top_n).getD c 0 := by
      by_contra hle
      push_neg at hle
      have : (zero_dropped preds top_n).getD c 0
          / (zero_dropped preds top_n).sum ≤ 0 :=
        div_nonpos_of_nonpos_of_nonneg hle (le_of_lt hS)
      exact absurd (lt_of_lt_of_le hcpos this) (lt_irrefl 0)
    rw [zero_dropped_getD hclen] at hzpos
    have hc_not_dropped : c ∉ dropped_idx preds top_n := by
      intro hmem
      rw [if_pos hmem] at hzpos
      exact absurd hzpos (lt_irrefl 0)
    rw [if_neg hc_not_dropped] at hzpos
    refine ⟨hzpos, ?_⟩
    have hc_kept : c ∈ (argsort preds).drop (preds.length - top_n) := by
      have hcmem : c ∈ (argsort preds).take (preds.length - top_n)
          ++ (argsort preds).drop (preds.length - top_n) := by
        rw [List.take_append_drop]
        exact mem_argsort.mpr hclen
      rcases List.mem_append.mp hcmem with h1 | h2
      · exfalso
        apply hc_not_dropped
        unfold dropped_idx
        rw [if_neg (by omega)]
        exact h1
      · exact h2
    exact kept_rank hn hc_kept
  · intro hbig
    have hdrop : dropped_idx preds top_n = [] := by
      unfold dropped_idx
      rw [if_neg (by omega)]
      rw [show preds.length - top_n = 0 by omega, List.take_zero]
    have hz : zero_dropped preds top_n = preds := by
      unfold zero_dropped
      rw [hdrop]
      simp only [List.not_mem_nil, if_false]
      exact map_getD_range preds
    show (zero_dropped preds top_n).map
      (· / (zero_dropped preds top_n).sum) = preds
    rw [hz, hsum]
    calc preds.map (· / 1) = preds.map id := by
          apply List.map_congr_left
          intro a ha
          simp
      _ = preds := List.map_id preds

unseal List.merge List.mergeSort Rat.mul Rat.add Rat.sub Rat.inv in
/-- C7 witness: the distribution `[1/2, 1/4, 1/4]` with `top_n = 2`. -/
theorem pick_top_n_spec_witness :
    (∀ x ∈ [(1 : ℚ)/2, 1/4, 1/4], 0 ≤ x) ∧
    ([(1 : ℚ)/2, 1/4, 1/4].sum = 1) ∧
    (pick_top_n_dist [(1 : ℚ)/2, 1/4, 1/4] 2).sum = 1 :=
  ⟨by decide, by decide,
    (pick_top_n_spec [(1 : ℚ)/2, 1/4, 1/4] 2 (by decide) (by decide)
      (by decide)).1⟩

/-- C10: `pick_top_n` is not side-effect-free on its argument.
`np.squeeze(preds)` returns a view of the caller's array, and the
assignment `p[np.argsort(p)[:-top_n]] = 0` writes zeros through that
view, so after the call the caller's prediction array is
`zero_dropped preds top_n`: same length as `preds`, zero at every index
in `argsort(preds)[:-top_n]` (outside the top `top_n`), the original
value at every kept index, and every surviving nonzero entry ranks
within the top `top_n`.  Only the rebinding `p = p / np.sum(p)`
(`pick_top_n_dist`) is local to the function. -/
theorem pick_top_n_mutates (preds : List ℚ) (top_n : Nat)
    (hn : 1 ≤ top_n) :
    (zero_dropped preds top_n).length = preds.length ∧
    (∀ i ∈ (argsort preds).take (preds.length - top_n),
      (zero_dropped preds top_n).getD i 0 = 0) ∧
    (∀ i ∈ (argsort preds).drop (preds.length - top_n),
      (zero_dropped preds top_n).getD i 0 = preds.getD i 0) ∧
    (∀ i, (zero_dropped preds top_n).getD i 0 ≠ 0 →
      ((List.range preds.length).filter
        fun j => decide (preds.getD i 0 < preds.getD j 0)).length
          < top_n) := by
  have hdropped : dropped_idx preds top_n
      = (argsort preds).take (preds.length - top_n) := by
    unfold dropped_idx
    rw [if_neg (by omega)]
  refine ⟨zero_dropped_length preds top_n, ?_, ?_, ?_⟩
  · intro i hi
    have hilt : i < preds.length :=
      mem_argsort.mp (List.mem_of_mem_take hi)
    rw [zero_dropped_getD hilt, hdropped, if_pos hi]
  · intro i hi
    have hilt : i < preds.length :=
      mem_argsort.mp (List.mem_of_mem_drop hi)
    rw [zero_dropped_getD hilt, hdropped,
      if_neg (argsort_drop_not_take hi)]
  · intro i hne
    have hilt : i < preds.length := by
      by_contra hge
      push_neg at hge
      apply hne
      apply List.getD_eq_default
      rw [zero_dropped_length]
      exact hge
    rw [zero_dropped_getD hilt, hdropped] at hne
    have hi_not_take : i ∉ (argsort preds).take (preds.length - top_n) := by
      intro hmem
      rw [if_pos hmem] at hne
      exact hne rfl
    have hi_drop : i ∈ (argsort preds).drop (preds.length - top_n) := by
      have himem : i ∈ (argsort preds).take (preds.length - top_n)
          ++ (argsort preds).drop (preds.length - top_n) := by
        rw [List.take_append_drop]
        exact mem_argsort.mpr hilt
      rcases List.mem_append.mp himem with h1 | h2
      · exact absurd h1 hi_not_take
      · exact h2
    exact kept_rank hn hi_drop

unseal List.merge List.mergeSort Rat.mul Rat.add Rat.sub Rat.inv in
/-- C10 witness: for `preds = [1/2, 1/3, 1/6]` and `top_n = 1` the
caller's array after the call is `[1/2, 0, 0]`, which differs from the
original `preds` — the mutation is observable. -/
theorem pick_top_n_mutates_witness :
    (1 : Nat) ≤ 1 ∧
    (zero_dropped [(1 : ℚ)/2, 1/3, 1/6] 1).length
      = [(1 : ℚ)/2, 1/3, 1/6].length ∧
    zero_dropped [(1 : ℚ)/2, 1/3, 1/6] 1 = [(1 : ℚ)/2, 0, 0] ∧
    zero_dropped [(1 : ℚ)/2, 1/3, 1/6] 1 ≠ [(1 : ℚ)/2, 1/3, 1/6] :=
  ⟨le_refl 1, (pick_top_n_mutates [(1 : ℚ)/2, 1/3, 1/6] 1 (le_refl 1)).1,
    by decide, by decide⟩

/-- C1: the claim fails on the code, on two counts visible in the source
of `sample`.  First, the line `prime = "Far"` overwrites the priming
argument, contradicting the function's own signature (default
`prime="The "`) and the notebook's description of priming "by passing in
a string".  Second, one character is generated and appended between the
priming loop and the `for i in range(n_samples)` loop, so `n_samples = 0`
still emits one generated character.  Concretely, with a stub model that
always predicts the one-character vocabulary `['X']`, calling `sample`
with `n_samples = 0` and priming string `"AB"` returns `"FarX"` (length
`3 + 1 + 0`), not `"AB"`. -/
theorem sample_ignores_prime_and_overshoots :
    sample ⟨(), fun _ _ => ((), [1])⟩ (fun _ => 0) ['X'] 0 "AB" = "FarX" ∧
    "FarX" ≠ "AB" ∧
    (sample ⟨(), fun _ _ => ((), [1])⟩ (fun _ => 0) ['X'] 0 "AB").length
      ≠ "AB".length + 0 := by
  refine ⟨by decide, by decide, by decide⟩
